import Mathlib

/-!
Shallow embedding of the core of an educational proof-of-work blockchain
node (chain store, mempool, miner, network worker), translated from the
Rust sources under `src/`:

  * `src/blockchain/mod.rs`   — `Blockchain` (blocks, heights, tip), `DIFFICULTY`
  * `src/types/block.rs`      — `Header`, `Content`, `Block`, `BlockState`
  * `src/types/transaction.rs`— `Transaction`, `SignedTransaction`, `ICO`, `verify`
  * `src/types/merkle.rs`     — `MerkleTree::new` / `proof` / `verify`
  * `src/network/worker.rs`   — the `Blocks` / `Transactions` message handlers
  * `src/miner/mod.rs`        — `Mempool`, the miner's selection and cleanup passes
  * `src/miner/worker.rs`     — the miner-side commit path

Modelling conventions:

  * `H256` digests are modelled as natural numbers; the Rust difficulty
    comparison is byte-lexicographic on 32-byte digests, which coincides
    with `≤` on the big-endian integer value, i.e. with `Nat.le` here.
  * The external cryptographic primitives (SHA-256 via `ring`/`sha2`,
    Ed25519 via `ring`, `bincode` serialization sizes, address
    derivation) live outside this repository; they are abstracted into
    an `Env` record of function parameters.  All definitions are
    otherwise translated line by line from the source.
  * Rust `HashMap`/`HashSet` are modelled as association lists (`Listmap`)
    resp. lists of keys; `HashMap::insert` replaces the value in place,
    `remove` drops the binding.  Where the source iterates over a
    `HashMap` (unspecified order) the model iterates in list order.
  * A Rust panic (`unwrap` on `None`, indexing a missing key) is
    modelled by returning `none` from an `Option`-valued function.
-/

namespace PoWNode

/-! ### Association-list model of `HashMap` -/

/-- Lookup of a key in an association list (`HashMap::get`). -/
def lookupA {β : Type} (k : Nat) : List (Nat × β) → Option β
  | [] => none
  | p :: m => if p.1 = k then some p.2 else lookupA k m

/-- Key membership (`HashMap::contains_key`). -/
def containsA {β : Type} (k : Nat) (m : List (Nat × β)) : Bool :=
  (lookupA k m).isSome

/-- `HashMap::insert`: replace the binding in place if the key is
present, otherwise append the new binding. -/
def insertA {β : Type} (k : Nat) (v : β) (m : List (Nat × β)) : List (Nat × β) :=
  if containsA k m then m.map (fun p => if p.1 = k then (k, v) else p)
  else m ++ [(k, v)]

/-- `HashMap::remove`: drop every binding of the key. -/
def eraseA {β : Type} (k : Nat) : List (Nat × β) → List (Nat × β)
  | [] => []
  | p :: m => if p.1 = k then eraseA k m else p :: eraseA k m

theorem lookupA_replace_self {β : Type} (k : Nat) (v : β) (m : List (Nat × β)) :
    lookupA k (m.map (fun p => if p.1 = k then (k, v) else p)) =
      (lookupA k m).map (fun _ => v) := by
  induction m with
  | nil => rfl
  | cons p rest ih =>
    by_cases hp : p.1 = k
    · simp [lookupA, hp]
    · simp [lookupA, hp, ih]

theorem lookupA_replace_ne {β : Type} (k k' : Nat) (v : β) (m : List (Nat × β))
    (h : k' ≠ k) :
    lookupA k' (m.map (fun p => if p.1 = k then (k, v) else p)) = lookupA k' m := by
  induction m with
  | nil => rfl
  | cons p rest ih =>
    by_cases hp : p.1 = k
    · have hne : k ≠ k' := fun e => h e.symm
      simp [lookupA, hp, hne, fun e : p.1 = k' => h (hp ▸ e).symm, ih]
    · by_cases hp' : p.1 = k'
      · simp [lookupA, hp, hp', h]
      · simp [lookupA, hp, hp', ih]

theorem lookupA_append_single_self {β : Type} (k : Nat) (v : β) (m : List (Nat × β))
    (h : lookupA k m = none) : lookupA k (m ++ [(k, v)]) = some v := by
  induction m with
  | nil =>
    simp [lookupA]
  | cons p rest ih =>
    by_cases hp : p.1 = k
    · simp [lookupA, hp] at h
    · simp only [lookupA, hp, if_false] at h
      simp only [List.cons_append, lookupA, hp, if_false]
      exact ih h

theorem lookupA_append_single_ne {β : Type} (k k' : Nat) (v : β) (m : List (Nat × β))
    (h : k' ≠ k) : lookupA k' (m ++ [(k, v)]) = lookupA k' m := by
  induction m with
  | nil =>
    simp only [List.nil_append, lookupA]
    rw [if_neg (fun e => h e.symm)]
  | cons p rest ih =>
    by_cases hp' : p.1 = k'
    · simp [lookupA, hp']
    · simp only [List.cons_append, lookupA, hp', if_false]
      exact ih

theorem lookupA_insertA_self {β : Type} (k : Nat) (v : β) (m : List (Nat × β)) :
    lookupA k (insertA k v m) = some v := by
  unfold insertA
  by_cases h : containsA k m
  · rw [if_pos h, lookupA_replace_self]
    unfold containsA at h
    cases hl : lookupA k m with
    | none => rw [hl] at h; simp at h
    | some w => simp
  · rw [if_neg h]
    unfold containsA at h
    cases hl : lookupA k m with
    | none => exact lookupA_append_single_self k v m hl
    | some w => rw [hl] at h; simp at h

theorem lookupA_insertA_ne {β : Type} (k k' : Nat) (v : β) (m : List (Nat × β))
    (h : k' ≠ k) : lookupA k' (insertA k v m) = lookupA k' m := by
  unfold insertA
  by_cases hc : containsA k m
  · rw [if_pos hc, lookupA_replace_ne k k' v m h]
  · rw [if_neg hc, lookupA_append_single_ne k k' v m h]

theorem lookupA_insertA_of_lookup {β : Type} (k : Nat) (v : β) (m : List (Nat × β))
    (h : lookupA k m = some v) (k' : Nat) :
    lookupA k' (insertA k v m) = lookupA k' m := by
  by_cases hk : k' = k
  · subst hk
    rw [lookupA_insertA_self, h]
  · exact lookupA_insertA_ne k k' v m hk

theorem containsA_insertA_elim {β : Type} (k k' : Nat) (v : β) (m : List (Nat × β))
    (h : containsA k' (insertA k v m) = true) : k' = k ∨ containsA k' m = true := by
  by_cases hk : k' = k
  · exact Or.inl hk
  · unfold containsA at h
    rw [lookupA_insertA_ne k k' v m hk] at h
    exact Or.inr h

theorem containsA_insertA_of_containsA {β : Type} (k k' : Nat) (v : β)
    (m : List (Nat × β)) (h : containsA k' m = true) :
    containsA k' (insertA k v m) = true := by
  by_cases hk : k' = k
  · subst hk
    unfold containsA
    rw [lookupA_insertA_self]
    rfl
  · unfold containsA
    rw [lookupA_insertA_ne k k' v m hk]
    exact h

theorem containsA_insertA_self {β : Type} (k : Nat) (v : β) (m : List (Nat × β)) :
    containsA k (insertA k v m) = true := by
  unfold containsA
  rw [lookupA_insertA_self]
  rfl

/-! ### Data model (`src/types/block.rs`, `src/types/transaction.rs`) -/

/-- `Transaction { sender, receiver, value, account_nonce }`.
Addresses and the `u32` fields are modelled as naturals. -/
structure Transaction where
  sender : Nat
  receiver : Nat
  value : Nat
  account_nonce : Nat
  deriving DecidableEq, Repr

/-- `SignedTransaction { transaction, signature, public_key }`; the byte
vectors are modelled as abstract natural-number codes. -/
structure SignedTransaction where
  transaction : Transaction
  signature : Nat
  public_key : Nat
  deriving DecidableEq, Repr

/-- `Header { parent, nonce, difficulty, timestamp, merkle_root }`. -/
structure Header where
  parent : Nat
  nonce : Nat
  difficulty : Nat
  timestamp : Nat
  merkle_root : Nat
  deriving DecidableEq, Repr

/-- `Content { transactions }`. -/
structure Content where
  transactions : List SignedTransaction
  deriving DecidableEq, Repr

/-- `Block { header, content }`. -/
structure Block where
  header : Header
  content : Content
  deriving DecidableEq, Repr

/-- The external primitives consumed by the core: SHA-256 digests of a
serialized header (`Hashable for Header`/`Block`), of a serialized
signed transaction (`Hashable for SignedTransaction`), the Merkle pair
combiner `hash_two` (SHA-256 of the concatenation), Ed25519 signature
verification over the serialized transaction
(`types/transaction.rs::verify`), address derivation from a public key
(`Address::from_public_key_bytes`, whose source is not under `src/`,
modelled from the spec as an abstract derivation), and the bincode
serialized size of a signed transaction. -/
structure Env where
  hashHeader : Header → Nat
  hashTx : SignedTransaction → Nat
  hashTwo : Nat → Nat → Nat
  sigVerify : Transaction → Nat → Nat → Bool
  addrOfPk : Nat → Nat
  txSize : SignedTransaction → Nat

/-- `Block::hash` hashes only the header. -/
def Block.hashB (E : Env) (b : Block) : Nat :=
  E.hashHeader b.header

/-- `Block::get_parent`. -/
def Block.get_parent (b : Block) : Nat :=
  b.header.parent

/-- The 32 bytes of `blockchain::DIFFICULTY`. -/
def DIFFICULTY_BYTES : List Nat :=
  [0, 1, 50, 1, 1, 1, 1, 1, 1, 1, 1, 1, 1, 1, 1, 1,
   1, 1, 1, 1, 1, 1, 1, 1, 1, 1, 1, 1, 1, 1, 1, 1]

/-- `DIFFICULTY` as the big-endian integer value of its 32 bytes (the
order in which `H256` compares digests). -/
def DIFFICULTY : Nat :=
  DIFFICULTY_BYTES.foldl (fun acc b => acc * 256 + b) 0

/-! ### Chain store (`src/blockchain/mod.rs`) -/

/-- The fixed genesis header: all-zero parent, nonce 0, the canonical
difficulty, timestamp 0, zero merkle root. -/
def genesisHeader : Header :=
  { parent := 0, nonce := 0, difficulty := DIFFICULTY, timestamp := 0, merkle_root := 0 }

/-- The genesis block: fixed header and empty content. -/
def genesisBlock : Block :=
  { header := genesisHeader, content := { transactions := [] } }

/-- Hash of the genesis block. -/
def genesisHash (E : Env) : Nat :=
  genesisBlock.hashB E

/-- `Blockchain { blocks, tip, heights }`. -/
structure Blockchain where
  blocks : List (Nat × Block)
  tip : Nat
  heights : List (Nat × Nat)
  deriving DecidableEq, Repr

/-- `Blockchain::new`: only the genesis block, at height 0, as tip. -/
def Blockchain.new (E : Env) : Blockchain :=
  { blocks := [(genesisHash E, genesisBlock)]
    tip := genesisHash E
    heights := [(genesisHash E, 0)] }

/-- `Blockchain::insert`.  The parent's height is read with
`unwrap_or(0)`; the block is stored unconditionally; the tip moves iff
the new height strictly exceeds the current tip's height.  The final
read `self.heights[&self.tip]` (done after the new height is stored)
panics when the tip has no height entry, modelled by `none`. -/
def Blockchain.insert (E : Env) (bc : Blockchain) (block : Block) : Option Blockchain :=
  let block_hash := block.hashB E
  let parent_hash := block.get_parent
  let parent_height := (lookupA parent_hash bc.heights).getD 0
  let new_block_height := parent_height + 1
  let blocks' := insertA block_hash block bc.blocks
  let heights' := insertA block_hash new_block_height bc.heights
  match lookupA bc.tip heights' with
  | none => none
  | some current_tip_height =>
      some { blocks := blocks'
             heights := heights'
             tip := if new_block_height > current_tip_height then block_hash else bc.tip }

/-- `Blockchain::tip`. -/
def Blockchain.tipOf (bc : Blockchain) : Nat :=
  bc.tip

/-! ### Mempool (`src/miner/mod.rs`) -/

/-- `Mempool { transaction_map, transaction_set }`: pending transactions
plus the set of every hash ever admitted. -/
structure Mempool where
  transaction_map : List (Nat × SignedTransaction)
  transaction_set : List Nat
  deriving DecidableEq, Repr

/-- `Mempool::new`. -/
def Mempool.new : Mempool :=
  { transaction_map := [], transaction_set := [] }

/-- `Mempool::insert`: a no-op when the hash was ever seen; otherwise
writes to both the map and the seen-set. -/
def Mempool.insert (E : Env) (mp : Mempool) (tx : SignedTransaction) : Mempool :=
  if E.hashTx tx ∈ mp.transaction_set then mp
  else
    { transaction_map := insertA (E.hashTx tx) tx mp.transaction_map
      transaction_set := mp.transaction_set ++ [E.hashTx tx] }

/-- `Mempool::remove`: evicts from the map only; the seen-set is
monotonic. -/
def Mempool.remove (mp : Mempool) (transaction_hash : Nat) : Mempool :=
  if containsA transaction_hash mp.transaction_map then
    { mp with transaction_map := eraseA transaction_hash mp.transaction_map }
  else mp

/-! ### Merkle tree (`src/types/merkle.rs`)

`hash_two` (SHA-256 of the concatenation of two digests) is the
abstract combiner `ht`. -/

/-- Duplicate the last node of a layer with odd cardinality
(`if leaves.len() % 2 != 0 { leaves.push(leaves[leaves.len()-1]) }`). -/
def padLayer (l : List Nat) : List Nat :=
  if l.length % 2 ≠ 0 then l ++ [l.getLastD 0] else l

/-- Combine consecutive pairs with `hash_two`
(`for chunk in leaves.chunks(2) { next_layer.push(hash_two(&chunk[0], &chunk[1])) }`;
after padding the layer has even length). -/
def combinePairs (ht : Nat → Nat → Nat) : List Nat → List Nat
  | a :: b :: rest => ht a b :: combinePairs ht rest
  | _ => []

theorem combinePairs_length (ht : Nat → Nat → Nat) :
    ∀ l : List Nat, (combinePairs ht l).length = l.length / 2
  | [] => by simp [combinePairs]
  | [_] => by simp [combinePairs]
  | _ :: _ :: rest => by
      simp only [combinePairs, List.length_cons, combinePairs_length ht rest]
      omega

/-- One construction step: pad the layer, then combine pairs. -/
def nextLayer (ht : Nat → Nat → Nat) (l : List Nat) : List Nat :=
  combinePairs ht (padLayer l)

theorem padLayer_length (l : List Nat) :
    (padLayer l).length = l.length + l.length % 2 := by
  unfold padLayer
  by_cases h : l.length % 2 ≠ 0
  · rw [if_pos h]
    simp only [List.length_append, List.length_cons, List.length_nil]
    omega
  · rw [if_neg h]
    omega

theorem nextLayer_length (ht : Nat → Nat → Nat) (l : List Nat) :
    (nextLayer ht l).length = (l.length + l.length % 2) / 2 := by
  unfold nextLayer
  rw [combinePairs_length, padLayer_length]

theorem nextLayer_length_lt (ht : Nat → Nat → Nat) (l : List Nat)
    (h : 2 ≤ l.length) : (nextLayer ht l).length < l.length := by
  rw [nextLayer_length]
  omega

/-- Structural helper for `buildLayers`: the fuel bounds the number of
`while leaves.len() > 1` iterations; `fuel = l.length` always suffices
because each `nextLayer` strictly shrinks a layer of length ≥ 2
(`buildLayers_eq` recovers the loop equation). -/
def buildLayersAux (ht : Nat → Nat → Nat) : Nat → List Nat → List (List Nat)
  | 0, l => [l]
  | fuel + 1, l =>
      if l.length ≤ 1 then [l]
      else l :: buildLayersAux ht fuel (nextLayer ht l)

/-- The layers of the tree, bottom (the leaves) to top (the singleton
root layer); matches the `tree` vector built by `MerkleTree::new` for a
non-empty leaf list (layers are stored before padding). -/
def buildLayers (ht : Nat → Nat → Nat) (l : List Nat) : List (List Nat) :=
  buildLayersAux ht l.length l

theorem buildLayersAux_congr (ht : Nat → Nat → Nat) :
    ∀ (fuel fuel' : Nat) (l : List Nat), l.length ≤ fuel → l.length ≤ fuel' →
      buildLayersAux ht fuel l = buildLayersAux ht fuel' l := by
  intro fuel
  induction fuel with
  | zero =>
    intro fuel' l h h'
    have hl : l = [] := List.length_eq_zero.mp (Nat.le_zero.mp h)
    subst hl
    cases fuel' with
    | zero => rfl
    | succ f => simp [buildLayersAux]
  | succ f ih =>
    intro fuel' l h h'
    cases fuel' with
    | zero =>
      have hl : l = [] := List.length_eq_zero.mp (Nat.le_zero.mp h')
      subst hl
      simp [buildLayersAux]
    | succ f' =>
      by_cases hlen : l.length ≤ 1
      · simp [buildLayersAux, hlen]
      · simp only [buildLayersAux, hlen, if_false]
        have hlt := nextLayer_length_lt ht l (by omega)
        exact congrArg _ (ih f' (nextLayer ht l) (by omega) (by omega))

/-- The loop equation of `MerkleTree::new`'s layer construction. -/
theorem buildLayers_eq (ht : Nat → Nat → Nat) (l : List Nat) :
    buildLayers ht l = if l.length ≤ 1 then [l]
      else l :: buildLayers ht (nextLayer ht l) := by
  unfold buildLayers
  by_cases hlen : l.length ≤ 1
  · rw [if_pos hlen]
    cases hn : l.length with
    | zero =>
      have hl : l = [] := List.length_eq_zero.mp hn
      subst hl
      rfl
    | succ n =>
      rw [hn] at hlen
      have : n = 0 := by omega
      subst this
      simp [buildLayersAux, hn]
  · rw [if_neg hlen]
    have h2 : 2 ≤ l.length := by omega
    have hlt := nextLayer_length_lt ht l h2
    cases hn : l.length with
    | zero => omega
    | succ n =>
      simp only [buildLayersAux]
      rw [if_neg (by omega : ¬ l.length ≤ 1)]
      refine congrArg _ ?_
      exact buildLayersAux_congr ht n (nextLayer ht l).length (nextLayer ht l)
        (by omega) (le_refl _)

/-- The root read off the layer list: sole element of the last layer. -/
def rootOfLayers (layers : List (List Nat)) : Nat :=
  (layers.getLastD []).headD 0

/-- `MerkleTree { leaves, root, tree }`. -/
structure MerkleTree where
  leaves : List Nat
  root : Nat
  tree : List (List Nat)

/-- `MerkleTree::new`: empty input gives the default (zero) root and an
empty layer list; otherwise hash each datum into the leaf layer and
build the layers. -/
def MerkleTree.new {α : Type} (ht : Nat → Nat → Nat) (hashDatum : α → Nat)
    (data : List α) : MerkleTree :=
  if data.isEmpty then { leaves := [], root := 0, tree := [] }
  else
    let leaves := data.map hashDatum
    let tree := buildLayers ht leaves
    { leaves := leaves, root := rootOfLayers tree, tree := tree }

/-- `MerkleTree::root`. -/
def MerkleTree.rootOf (t : MerkleTree) : Nat :=
  t.root

/-- The loop of `MerkleTree::proof` over `tree[..tree.len() - 1]`: at
each layer emit the sibling when it is in bounds, otherwise the node's
own hash (the padded copy), then halve the index. -/
def proofAux : List (List Nat) → Nat → List Nat
  | [], _ => []
  | [_], _ => []
  | l :: rest, idx =>
      (if (if idx % 2 = 0 then idx + 1 else idx - 1) < l.length
       then l.getD (if idx % 2 = 0 then idx + 1 else idx - 1) 0
       else l.getD idx 0)
        :: proofAux rest (idx / 2)

/-- `MerkleTree::proof`: empty proof for an out-of-range index. -/
def MerkleTree.proofOf (t : MerkleTree) (index : Nat) : List Nat :=
  if index ≥ t.leaves.length then [] else proofAux t.tree index

/-- The loop of `verify`: fold the proof over the datum, combining on
the side given by the parity of the running index. -/
def computeRoot (ht : Nat → Nat → Nat) : Nat → Nat → List Nat → Nat
  | current, _, [] => current
  | current, idx, sibling :: rest =>
      computeRoot ht (if idx % 2 = 0 then ht current sibling else ht sibling current)
        (idx / 2) rest

/-- `merkle::verify(root, datum, proof, index, leaf_size)`. -/
def merkleVerify (ht : Nat → Nat → Nat) (root datum : Nat) (proof : List Nat)
    (index leaf_size : Nat) : Bool :=
  if index ≥ leaf_size then false
  else computeRoot ht datum index proof == root

/-! Round-trip lemmas for the Merkle tree. -/

theorem getLastD_eq_getD : ∀ (l : List Nat) (d : Nat), l ≠ [] →
    l.getLastD d = l.getD (l.length - 1) 0
  | [], _, h => absurd rfl h
  | [a], d, _ => rfl
  | a :: b :: t, d, _ => by
      have ih := getLastD_eq_getD (b :: t) a (by simp)
      simp only [List.getLastD_cons] at ih ⊢
      rw [ih]
      simp only [List.length_cons]
      have h1 : t.length + 1 - 1 = t.length := by omega
      have h2 : t.length + 1 + 1 - 1 = t.length + 1 := by omega
      rw [h1, h2]
      rfl

theorem combinePairs_getD (ht : Nat → Nat → Nat) :
    ∀ (j : Nat) (pl : List Nat), 2 * j + 1 < pl.length →
      (combinePairs ht pl).getD j 0 = ht (pl.getD (2 * j) 0) (pl.getD (2 * j + 1) 0) := by
  intro j
  induction j with
  | zero =>
    intro pl h
    match pl, h with
    | a :: b :: rest, _ => simp [combinePairs]
  | succ j ih =>
    intro pl h
    match pl, h with
    | a :: b :: rest, h =>
      have hr : 2 * j + 1 < rest.length := by
        simp only [List.length_cons] at h
        omega
      have e1 : 2 * (j + 1) = 2 * j + 1 + 1 := by omega
      have e2 : 2 * (j + 1) + 1 = 2 * j + 1 + 1 + 1 := by omega
      simp only [combinePairs, e1, e2, List.getD_cons_succ]
      exact ih rest hr

theorem padLayer_getD_lt (l : List Nat) (k : Nat) (h : k < l.length) :
    (padLayer l).getD k 0 = l.getD k 0 := by
  unfold padLayer
  by_cases hodd : l.length % 2 ≠ 0
  · rw [if_pos hodd]
    rw [List.getD_append _ _ _ _ h]
  · rw [if_neg hodd]

theorem padLayer_getD_end (l : List Nat) (hodd : l.length % 2 = 1) :
    (padLayer l).getD l.length 0 = l.getD (l.length - 1) 0 := by
  have hne : l ≠ [] := by
    intro h
    subst h
    simp at hodd
  unfold padLayer
  rw [if_pos (by omega)]
  rw [List.getD_append_right _ _ _ _ (le_refl _)]
  simp only [Nat.sub_self, List.getD_cons_zero]
  exact getLastD_eq_getD l 0 hne

/-- One combination step of `verify` matches one layer step of the
construction: combining a node with the sibling chosen by
`MerkleTree::proof` yields the parent node in the next layer. -/
theorem step_eq_nextLayer (ht : Nat → Nat → Nat) (l : List Nat) (idx : Nat)
    (h : idx < l.length) :
    (if idx % 2 = 0
     then ht (l.getD idx 0)
            (if (if idx % 2 = 0 then idx + 1 else idx - 1) < l.length
             then l.getD (if idx % 2 = 0 then idx + 1 else idx - 1) 0
             else l.getD idx 0)
     else ht (if (if idx % 2 = 0 then idx + 1 else idx - 1) < l.length
              then l.getD (if idx % 2 = 0 then idx + 1 else idx - 1) 0
              else l.getD idx 0)
            (l.getD idx 0))
    = (nextLayer ht l).getD (idx / 2) 0 := by
  have hpadlen : (padLayer l).length = l.length + l.length % 2 := padLayer_length l
  by_cases hpar : idx % 2 = 0
  · simp only [hpar, if_pos rfl, if_true]
    have he1 : 2 * (idx / 2) = idx := by omega
    by_cases hsib : idx + 1 < l.length
    · rw [if_pos hsib]
      unfold nextLayer
      rw [combinePairs_getD ht (idx / 2) (padLayer l) (by omega), he1,
        padLayer_getD_lt l idx h, padLayer_getD_lt l (idx + 1) hsib]
    · rw [if_neg hsib]
      -- idx is the last node of an odd layer; the padded sibling is itself
      have hlast : idx + 1 = l.length := by omega
      have hodd : l.length % 2 = 1 := by omega
      unfold nextLayer
      rw [combinePairs_getD ht (idx / 2) (padLayer l) (by omega), he1,
        padLayer_getD_lt l idx h, hlast, padLayer_getD_end l hodd]
      have : l.length - 1 = idx := by omega
      rw [this]
  · simp only [hpar, if_neg, if_false]
    have hidx1 : 1 ≤ idx := by omega
    have he1 : 2 * (idx / 2) = idx - 1 := by omega
    have he3 : idx - 1 + 1 = idx := by omega
    rw [if_pos (by omega : idx - 1 < l.length)]
    unfold nextLayer
    rw [combinePairs_getD ht (idx / 2) (padLayer l) (by omega), he1, he3,
      padLayer_getD_lt l (idx - 1) (by omega), padLayer_getD_lt l idx h]

theorem buildLayers_ne_nil (ht : Nat → Nat → Nat) (l : List Nat) :
    buildLayers ht l ≠ [] := by
  rw [buildLayers_eq]
  by_cases h : l.length ≤ 1
  · simp [h]
  · simp [h]

theorem rootOfLayers_cons (l : List Nat) (L : List (List Nat)) (h : L ≠ []) :
    rootOfLayers (l :: L) = rootOfLayers L := by
  unfold rootOfLayers
  congr 1
  match L, h with
  | x :: t, _ => simp [List.getLastD_cons]

/-- Walking `proof` from leaf `idx` of a non-trivial layer list
reproduces the root: the heart of the Merkle round-trip. -/
theorem computeRoot_buildLayers (ht : Nat → Nat → Nat) :
    ∀ (n : Nat) (l : List Nat), l.length ≤ n → ∀ idx, idx < l.length →
      computeRoot ht (l.getD idx 0) idx (proofAux (buildLayers ht l) idx) =
        rootOfLayers (buildLayers ht l) := by
  intro n
  induction n with
  | zero =>
    intro l h idx hidx
    omega
  | succ n ih =>
    intro l h idx hidx
    rw [buildLayers_eq]
    by_cases hlen : l.length ≤ 1
    · rw [if_pos hlen]
      match l, hidx, hlen with
      | [x], hidx, _ =>
        have : idx = 0 := by
          simp only [List.length_cons, List.length_nil] at hidx
          omega
        subst this
        rfl
    · rw [if_neg hlen]
      have h2 : 2 ≤ l.length := by omega
      have hnext_lt : (nextLayer ht l).length < l.length := nextLayer_length_lt ht l h2
      have hnext_pos : 0 < (nextLayer ht l).length := by
        rw [nextLayer_length]
        omega
      have hL : buildLayers ht (nextLayer ht l) ≠ [] := buildLayers_ne_nil ht _
      obtain ⟨l2, rest2, hL2⟩ := List.exists_cons_of_ne_nil hL
      have hhalf : idx / 2 < (nextLayer ht l).length := by
        rw [nextLayer_length]
        omega
      have ihnext := ih (nextLayer ht l) (by omega) (idx / 2) hhalf
      rw [hL2] at ihnext ⊢
      simp only [proofAux, computeRoot]
      rw [step_eq_nextLayer ht l idx hidx]
      rw [ihnext]
      exact (rootOfLayers_cons l (l2 :: rest2) (by simp)).symm

theorem getD_map_get {α : Type} (f : α → Nat) :
    ∀ (data : List α) (i : Nat) (hi : i < data.length),
      (data.map f).getD i 0 = f (data.get ⟨i, hi⟩)
  | a :: t, 0, _ => rfl
  | a :: t, i + 1, hi => by
      simp only [List.map_cons, List.getD_cons_succ, List.length_cons] at hi ⊢
      exact getD_map_get f t i (by omega)

/-! ### Network worker (`src/network/worker.rs`) -/

/-- Remove the hash of each transaction of a list from the mempool
(`for tx in ... { mempool.remove(&tx.hash()); }`). -/
def removeTxs (E : Env) (mp : Mempool) (txs : List SignedTransaction) : Mempool :=
  txs.foldl (fun m tx => m.remove (E.hashTx tx)) mp

/-- All transaction signatures of a block verify
(the `for transaction in &block.content.transactions` check). -/
def allSigsOk (E : Env) (b : Block) : Bool :=
  b.content.transactions.all fun t => E.sigVerify t.transaction t.public_key t.signature

/-- One pass of the inner `for orphan in orphan_buffer.orphans.clone()`
loop of the `Blocks` handler, with `blk` the popped process-stack block.
A matched orphan (`orphan.get_parent() == block.hash()`) is inserted
into the chain, after which the source removes `block`'s (the parent's)
transactions from the mempool, pushes `block.hash()` (the parent's
hash) onto the broadcast batch and pushes `block` (the parent) back
onto the process stack; an unmatched orphan is kept.  Returns the
updated chain, mempool, broadcast batch, process stack and the kept
orphans. -/
def drainPass (E : Env) (blk : Block) :
    List Block → Blockchain → Mempool → List Nat → List Block →
      Option (Blockchain × Mempool × List Nat × List Block × List Block)
  | [], bc, mp, bcast, proc => some (bc, mp, bcast, proc, [])
  | o :: rest, bc, mp, bcast, proc =>
      if o.get_parent = blk.hashB E then
        match bc.insert E o with
        | none => none
        | some bc' =>
            drainPass E blk rest bc' (removeTxs E mp blk.content.transactions)
              (bcast ++ [blk.hashB E]) (blk :: proc)
      else
        match drainPass E blk rest bc mp bcast proc with
        | none => none
        | some (bc', mp', bcast', proc', keep) =>
            some (bc', mp', bcast', proc', o :: keep)

theorem drainPass_measure (E : Env) (blk : Block) :
    ∀ (os : List Block) (bc : Blockchain) (mp : Mempool) (bcast : List Nat)
      (proc : List Block) (bc' : Blockchain) (mp' : Mempool) (bcast' : List Nat)
      (proc' keep : List Block),
      drainPass E blk os bc mp bcast proc = some (bc', mp', bcast', proc', keep) →
      proc'.length + keep.length ≤ proc.length + os.length ∧ keep.length ≤ os.length := by
  intro os
  induction os with
  | nil =>
    intro bc mp bcast proc bc' mp' bcast' proc' keep h
    simp only [drainPass, Option.some_inj] at h
    obtain ⟨rfl, rfl, rfl, rfl, rfl⟩ := h
    simp
  | cons o rest ih =>
    intro bc mp bcast proc bc' mp' bcast' proc' keep h
    simp only [drainPass] at h
    by_cases hm : o.get_parent = blk.hashB E
    · rw [if_pos hm] at h
      cases hins : bc.insert E o with
      | none => rw [hins] at h; exact absurd h (by simp)
      | some bci =>
        rw [hins] at h
        have := ih bci (removeTxs E mp blk.content.transactions)
          (bcast ++ [blk.hashB E]) (blk :: proc) bc' mp' bcast' proc' keep h
        simp only [List.length_cons] at this ⊢
        omega
    · rw [if_neg hm] at h
      cases hrec : drainPass E blk rest bc mp bcast proc with
      | none => rw [hrec] at h; exact absurd h (by simp)
      | some out =>
        obtain ⟨bc0, mp0, bcast0, proc0, keep0⟩ := out
        rw [hrec] at h
        simp only [Option.some_inj, Prod.mk.injEq] at h
        obtain ⟨-, -, -, h4, h5⟩ := h
        subst h4
        subst h5
        have hik := ih bc mp bcast proc bc0 mp0 bcast0 proc0 keep0 hrec
        simp only [List.length_cons] at hik ⊢
        omega

/-- Structural helper for the `while !process_blocks.is_empty()` drain
loop; the fuel bounds the number of iterations
(`process.length + 2 * orphans.length` always suffices, see
`drain_eq_cons`). -/
def drainAux (E : Env) (fuel : Nat) (proc orphans : List Block) (bc : Blockchain)
    (mp : Mempool) (bcast : List Nat) :
    Option (Blockchain × Mempool × List Nat × List Block) :=
  match proc, fuel with
  | [], _ => some (bc, mp, bcast, orphans)
  | _ :: _, 0 => none
  | blk :: proc', fuel' + 1 =>
      match drainPass E blk orphans bc mp bcast proc' with
      | none => none
      | some (bc', mp', bcast', procN, keep) =>
          drainAux E fuel' procN keep bc' mp' bcast'

/-- The orphan-drain loop of the `Blocks` handler: pop a block off the
process stack, run the orphan pass for it, replace the orphan buffer by
the kept orphans, repeat until the stack is empty.  Returns the final
chain, mempool, broadcast batch and orphan buffer. -/
def drain (E : Env) (proc orphans : List Block) (bc : Blockchain) (mp : Mempool)
    (bcast : List Nat) : Option (Blockchain × Mempool × List Nat × List Block) :=
  drainAux E (proc.length + 2 * orphans.length) proc orphans bc mp bcast

theorem drainAux_nil (E : Env) (fuel : Nat) (orphans : List Block) (bc : Blockchain)
    (mp : Mempool) (bcast : List Nat) :
    drainAux E fuel [] orphans bc mp bcast = some (bc, mp, bcast, orphans) := by
  cases fuel <;> rfl

theorem drainAux_congr (E : Env) :
    ∀ (fuel fuel' : Nat) (proc orphans : List Block) (bc : Blockchain) (mp : Mempool)
      (bcast : List Nat),
      proc.length + 2 * orphans.length ≤ fuel →
      proc.length + 2 * orphans.length ≤ fuel' →
      drainAux E fuel proc orphans bc mp bcast = drainAux E fuel' proc orphans bc mp bcast := by
  intro fuel
  induction fuel with
  | zero =>
    intro fuel' proc orphans bc mp bcast h h'
    have hproc : proc = [] := by
      cases proc with
      | nil => rfl
      | cons a t => simp only [List.length_cons] at h; omega
    subst hproc
    rw [drainAux_nil, drainAux_nil]
  | succ f ih =>
    intro fuel' proc orphans bc mp bcast h h'
    cases proc with
    | nil => rw [drainAux_nil, drainAux_nil]
    | cons blk p =>
      cases fuel' with
      | zero => simp only [List.length_cons] at h'; omega
      | succ f' =>
        show (match drainPass E blk orphans bc mp bcast p with
          | none => none
          | some (bc', mp', bcast', procN, keep) =>
              drainAux E f procN keep bc' mp' bcast') =
          (match drainPass E blk orphans bc mp bcast p with
          | none => none
          | some (bc', mp', bcast', procN, keep) =>
              drainAux E f' procN keep bc' mp' bcast')
        cases hdp : drainPass E blk orphans bc mp bcast p with
        | none => rfl
        | some out =>
          obtain ⟨bc', mp', bcast', procN, keep⟩ := out
          have hms := drainPass_measure E blk orphans bc mp bcast p bc' mp' bcast'
            procN keep hdp
          simp only [List.length_cons] at h h' hms
          exact ih f' procN keep bc' mp' bcast' (by omega) (by omega)

theorem drain_eq_nil (E : Env) (orphans : List Block) (bc : Blockchain) (mp : Mempool)
    (bcast : List Nat) : drain E [] orphans bc mp bcast = some (bc, mp, bcast, orphans) :=
  drainAux_nil E _ orphans bc mp bcast

/-- The loop equation of the drain loop. -/
theorem drain_eq_cons (E : Env) (blk : Block) (proc orphans : List Block)
    (bc : Blockchain) (mp : Mempool) (bcast : List Nat) :
    drain E (blk :: proc) orphans bc mp bcast =
      match drainPass E blk orphans bc mp bcast proc with
      | none => none
      | some (bc', mp', bcast', proc', keep) => drain E proc' keep bc' mp' bcast' := by
  have hu : (blk :: proc).length + 2 * orphans.length =
      (proc.length + 2 * orphans.length) + 1 := by
    simp only [List.length_cons]
    omega
  unfold drain
  rw [hu]
  show (match drainPass E blk orphans bc mp bcast proc with
    | none => none
    | some (bc', mp', bcast', procN, keep) =>
        drainAux E (proc.length + 2 * orphans.length) procN keep bc' mp' bcast') = _
  cases hdp : drainPass E blk orphans bc mp bcast proc with
  | none => rfl
  | some out =>
    obtain ⟨bc', mp', bcast', procN, keep⟩ := out
    have hms := drainPass_measure E blk orphans bc mp bcast proc bc' mp' bcast'
      procN keep hdp
    exact drainAux_congr E (proc.length + 2 * orphans.length)
      (procN.length + 2 * keep.length) procN keep bc' mp' bcast' (by omega) (le_refl _)

/-- The `Message::Blocks` loop body over the incoming block list, with
accumulators for the broadcast batch, requested missing parents, the
process stack and the per-message orphan buffer.  A block already in
the chain store is skipped; a block failing the `hash ≤ DIFFICULTY`
proof-of-work check or the per-transaction signature check is dropped;
a block with a known parent is inserted (its transactions removed from
the mempool, its hash queued for broadcast, the block pushed on the
process stack); otherwise the block is buffered as an orphan and its
parent recorded.  The drain loop then runs after either branch. -/
def blocksLoop (E : Env) :
    List Block → Blockchain → Mempool → List Nat → List Nat → List Block → List Block →
      Option (Blockchain × Mempool × List Nat × List Nat × List Block)
  | [], bc, mp, broadcast, parents, _proc, orphans =>
      some (bc, mp, broadcast, parents, orphans)
  | block :: rest, bc, mp, broadcast, parents, proc, orphans =>
      if containsA (block.hashB E) bc.blocks then
        blocksLoop E rest bc mp broadcast parents proc orphans
      else if ¬ (block.hashB E ≤ DIFFICULTY) then
        blocksLoop E rest bc mp broadcast parents proc orphans
      else if ¬ allSigsOk E block then
        blocksLoop E rest bc mp broadcast parents proc orphans
      else if containsA block.get_parent bc.blocks then
        match bc.insert E block with
        | none => none
        | some bc' =>
            match drain E (block :: proc) orphans bc'
                (removeTxs E mp block.content.transactions)
                (broadcast ++ [block.hashB E]) with
            | none => none
            | some (bc'', mp'', broadcast'', orphans') =>
                blocksLoop E rest bc'' mp'' broadcast'' parents [] orphans'
      else
        match drain E proc (orphans ++ [block]) bc mp broadcast with
        | none => none
        | some (bc'', mp'', broadcast'', orphans') =>
            blocksLoop E rest bc'' mp'' broadcast'' (parents ++ [block.get_parent]) [] orphans'

/-- The `Message::Blocks` handler: run the loop with empty accumulators
and a fresh (per-message, local) orphan buffer.  Returns the chain, the
mempool, the `NewBlockHashes` broadcast batch, the `GetBlocks` request
list, and the final value of the local orphan buffer (which the
handler then drops). -/
def handleBlocks (E : Env) (blocks : List Block) (bc : Blockchain) (mp : Mempool) :
    Option (Blockchain × Mempool × List Nat × List Nat × List Block) :=
  blocksLoop E blocks bc mp [] [] [] []

/-- The loop of the `Message::Transactions` handler: for each
transaction whose signature verifies, push its hash onto the broadcast
batch and insert it into the mempool. -/
def transactionsLoop (E : Env) :
    List SignedTransaction → Mempool → List Nat → Mempool × List Nat
  | [], mp, bcast => (mp, bcast)
  | tx :: rest, mp, bcast =>
      if E.sigVerify tx.transaction tx.public_key tx.signature then
        transactionsLoop E rest (mp.insert E tx) (bcast ++ [E.hashTx tx])
      else
        transactionsLoop E rest mp bcast

/-- The `Message::Transactions` handler.  Returns the mempool and the
`NewTransactionHashes` broadcast batch. -/
def handleTransactions (E : Env) (txs : List SignedTransaction) (mp : Mempool) :
    Mempool × List Nat :=
  transactionsLoop E txs mp []

/-! ### Miner (`src/miner/mod.rs`, `src/miner/worker.rs`) -/

/-- Per-block account state: address → (account nonce, balance). -/
def AccountState : Type :=
  List (Nat × (Nat × Nat))

/-- The miner's candidate block: header with the snapshot parent, a
random nonce, the static `DIFFICULTY`, the snapshot timestamp and the
Merkle root of the selected transactions. -/
def mineBlock (E : Env) (parent nonce timestamp : Nat)
    (transactions : List SignedTransaction) : Block :=
  { header :=
      { parent := parent, nonce := nonce, difficulty := DIFFICULTY,
        timestamp := timestamp,
        merkle_root := (MerkleTree.new E.hashTwo E.hashTx transactions).root }
    content := { transactions := transactions } }

/-- The miner's transaction-selection loop over a snapshot of the
mempool map.  Selection stops (`break`) when the size limit of 4000
bytes would be exceeded.  A transaction is rejected when
`value > sender_state.balance` or `account_nonce ≠ sender_state.nonce + 1`;
within the rejection branch it is evicted from the mempool when
`account_nonce < sender_state.1`, i.e. the source compares the nonce
against the sender's *balance* (field `.1` of the Rust pair is the
balance).  An accepted transaction updates the local state copy and is
appended to the selection. -/
def minerSelect (E : Env) :
    List (Nat × SignedTransaction) → AccountState → Mempool → Nat →
      List SignedTransaction → AccountState × Mempool × List SignedTransaction
  | [], tip_state, mp, _size, sel => (tip_state, mp, sel)
  | (_, tx) :: rest, tip_state, mp, size, sel =>
      let bytes := E.txSize tx
      if size + bytes > 4000 then (tip_state, mp, sel)
      else
        let transaction := tx.transaction
        let sender_state := (lookupA transaction.sender tip_state).getD (0, 0)
        if transaction.value > sender_state.2 ∨
            transaction.account_nonce ≠ sender_state.1 + 1 then
          minerSelect E rest tip_state
            (if transaction.account_nonce < sender_state.2 then
              mp.remove (E.hashTx tx)
            else mp) size sel
        else
          let ts1 := insertA transaction.sender
            (sender_state.1 + 1, sender_state.2 - transaction.value) tip_state
          let receiver_state := (lookupA transaction.receiver ts1).getD (0, 0)
          let ts2 := insertA transaction.receiver
            (receiver_state.1, receiver_state.2 + transaction.value) ts1
          minerSelect E rest ts2 mp (size + bytes) (sel ++ [tx])

/-- The miner's post-mine cleanup pass over a snapshot of the mempool
map: for each remaining transaction the sender is looked up in the new
block's state with an unguarded `unwrap()` — a sender absent from that
state panics the miner thread (`none`). -/
def minerCleanup (E : Env) :
    List (Nat × SignedTransaction) → AccountState → Mempool → Option Mempool
  | [], _, mp => some mp
  | (_, tx) :: rest, tip_state, mp =>
      match lookupA tx.transaction.sender tip_state with
      | none => none
      | some sender_state =>
          minerCleanup E rest tip_state
            (if tx.transaction.value > sender_state.2 ∨
                tx.transaction.account_nonce ≠ sender_state.1 + 1 then
              (if tx.transaction.account_nonce < sender_state.2 then
                mp.remove (E.hashTx tx)
              else mp)
            else mp)

/-- The miner-worker commit path (`src/miner/worker.rs`): skip when the
tip moved past the block's parent, skip a duplicate, otherwise insert. -/
def minerCommit (E : Env) (bc : Blockchain) (block : Block) : Option Blockchain :=
  if bc.tip ≠ block.get_parent then some bc
  else if containsA (block.hashB E) bc.blocks then some bc
  else bc.insert E block

/-! ### Reachable chain-store states and their invariants -/

/-- Chain-store states reachable from `Blockchain::new` through the two
paths that mutate the chain store: the network worker's `Blocks`
handler and the miner commit path.  A block reaching the commit path
came over the `finished_block` channel, so it was built by the miner
(`mineBlock`) and passed the `block.hash() <= difficulty_` check. -/
inductive Reachable (E : Env) : Blockchain → Prop
  | genesis : Reachable E (Blockchain.new E)
  | network (bc : Blockchain) (msg : List Block) (mp : Mempool) (bc' : Blockchain)
      (mp' : Mempool) (bcast preq : List Nat) (orphans : List Block) :
      Reachable E bc →
      handleBlocks E msg bc mp = some (bc', mp', bcast, preq, orphans) →
      Reachable E bc'
  | miner (bc : Blockchain) (parent nonce timestamp : Nat)
      (txs : List SignedTransaction) (bc' : Blockchain) :
      Reachable E bc →
      (mineBlock E parent nonce timestamp txs).hashB E ≤ DIFFICULTY →
      minerCommit E bc (mineBlock E parent nonce timestamp txs) = some bc' →
      Reachable E bc'

/-- Chain closure: every stored block is the genesis or has its parent
stored. -/
def ChainClosure (E : Env) (bc : Blockchain) : Prop :=
  ∀ p ∈ bc.blocks, p.1 = genesisHash E ∨ containsA p.2.get_parent bc.blocks = true

/-- Proof-of-work invariant: every stored non-genesis block hashes at
or below the static difficulty. -/
def PoWInv (E : Env) (bc : Blockchain) : Prop :=
  ∀ p ∈ bc.blocks, p.1 = genesisHash E ∨ Block.hashB E p.2 ≤ DIFFICULTY

/-- The inductive invariant of the chain store. -/
structure ChainInv (E : Env) (bc : Blockchain) : Prop where
  tip_heights : containsA bc.tip bc.heights = true
  tip_blocks : containsA bc.tip bc.blocks = true
  closure : ChainClosure E bc
  pow : PoWInv E bc

theorem mem_insertA {β : Type} (k : Nat) (v : β) (m : List (Nat × β)) (p : Nat × β)
    (h : p ∈ insertA k v m) : p = (k, v) ∨ p ∈ m := by
  unfold insertA at h
  by_cases hc : containsA k m
  · rw [if_pos hc] at h
    obtain ⟨q, hq, he⟩ := List.mem_map.mp h
    by_cases hqk : q.1 = k
    · rw [if_pos hqk] at he
      exact Or.inl he.symm
    · rw [if_neg hqk] at he
      exact Or.inr (he ▸ hq)
  · rw [if_neg hc] at h
    rcases List.mem_append.mp h with hm | hs
    · exact Or.inr hm
    · exact Or.inl (List.mem_singleton.mp hs)

/-- Unfolding of a successful `Blockchain::insert`. -/
theorem Blockchain.insert_spec (E : Env) (bc : Blockchain) (b : Block) (bc' : Blockchain)
    (hins : bc.insert E b = some bc') :
    bc'.blocks = insertA (b.hashB E) b bc.blocks ∧
    bc'.heights = insertA (b.hashB E) ((lookupA b.get_parent bc.heights).getD 0 + 1) bc.heights ∧
    (bc'.tip = b.hashB E ∨ bc'.tip = bc.tip) := by
  dsimp only [Blockchain.insert] at hins
  cases hl : lookupA bc.tip (insertA (b.hashB E)
      ((lookupA b.get_parent bc.heights).getD 0 + 1) bc.heights) with
  | none =>
    rw [hl] at hins
    exact absurd hins (by simp)
  | some cth =>
    rw [hl] at hins
    simp only [Option.some_inj] at hins
    subst hins
    refine ⟨rfl, rfl, ?_⟩
    by_cases hgt : (lookupA b.get_parent bc.heights).getD 0 + 1 > cth
    · exact Or.inl (by simp [hgt])
    · exact Or.inr (by simp [hgt])

/-- `Blockchain::insert` cannot panic while the tip has a height entry. -/
theorem Blockchain.insert_isSome (E : Env) (bc : Blockchain) (b : Block)
    (htip : containsA bc.tip bc.heights = true) :
    ∃ bc', bc.insert E b = some bc' := by
  dsimp only [Blockchain.insert]
  have hc : containsA bc.tip (insertA (b.hashB E)
      ((lookupA b.get_parent bc.heights).getD 0 + 1) bc.heights) = true :=
    containsA_insertA_of_containsA _ _ _ _ htip
  unfold containsA at hc
  cases hl : lookupA bc.tip (insertA (b.hashB E)
      ((lookupA b.get_parent bc.heights).getD 0 + 1) bc.heights) with
  | none => rw [hl] at hc; simp at hc
  | some cth => exact ⟨_, rfl⟩

/-- A successful insert of a block whose parent is stored and whose
hash meets the difficulty preserves the chain invariant; the block map
only grows. -/
theorem insert_chainInv (E : Env) (bc : Blockchain) (b : Block) (bc' : Blockchain)
    (hInv : ChainInv E bc) (hpar : containsA b.get_parent bc.blocks = true)
    (hpow : b.hashB E ≤ DIFFICULTY) (hins : bc.insert E b = some bc') :
    ChainInv E bc' ∧
      (∀ k, containsA k bc.blocks = true → containsA k bc'.blocks = true) ∧
      containsA (b.hashB E) bc'.blocks = true := by
  obtain ⟨hblocks, hheights, htip⟩ := Blockchain.insert_spec E bc b bc' hins
  have hmono : ∀ k, containsA k bc.blocks = true → containsA k bc'.blocks = true := by
    intro k hk
    rw [hblocks]
    exact containsA_insertA_of_containsA _ _ _ _ hk
  have hnew : containsA (b.hashB E) bc'.blocks = true := by
    rw [hblocks]
    exact containsA_insertA_self _ _ _
  refine ⟨⟨?_, ?_, ?_, ?_⟩, hmono, hnew⟩
  · rcases htip with he | he
    · rw [he, hheights]
      exact containsA_insertA_self _ _ _
    · rw [he, hheights]
      exact containsA_insertA_of_containsA _ _ _ _ hInv.tip_heights
  · rcases htip with he | he
    · rw [he]
      exact hnew
    · rw [he]
      exact hmono _ hInv.tip_blocks
  · intro p hp
    rw [hblocks] at hp
    rcases mem_insertA _ _ _ _ hp with hpb | hpm
    · subst hpb
      exact Or.inr (hmono _ hpar)
    · rcases hInv.closure p hpm with hg | hc
      · exact Or.inl hg
      · exact Or.inr (hmono _ hc)
  · intro p hp
    rw [hblocks] at hp
    rcases mem_insertA _ _ _ _ hp with hpb | hpm
    · subst hpb
      exact Or.inr hpow
    · exact hInv.pow p hpm

/-- Every orphan in a list meets the difficulty. -/
def AllPow (E : Env) (l : List Block) : Prop :=
  ∀ b ∈ l, b.hashB E ≤ DIFFICULTY

/-- Every block of the process stack is stored in the chain. -/
def AllInChain (E : Env) (bc : Blockchain) (l : List Block) : Prop :=
  ∀ b ∈ l, containsA (b.hashB E) bc.blocks = true

theorem drainPass_chainInv (E : Env) (blk : Block) :
    ∀ (os : List Block) (bc : Blockchain) (mp : Mempool) (bcast : List Nat)
      (proc : List Block) (bc' : Blockchain) (mp' : Mempool) (bcast' : List Nat)
      (proc' keep : List Block),
      drainPass E blk os bc mp bcast proc = some (bc', mp', bcast', proc', keep) →
      ChainInv E bc → containsA (blk.hashB E) bc.blocks = true →
      AllPow E os → AllInChain E bc proc →
      ChainInv E bc' ∧ containsA (blk.hashB E) bc'.blocks = true ∧
        AllInChain E bc' proc' ∧ AllPow E keep ∧
        (∀ k, containsA k bc.blocks = true → containsA k bc'.blocks = true) := by
  intro os
  induction os with
  | nil =>
    intro bc mp bcast proc bc' mp' bcast' proc' keep h hInv hblk hpow hproc
    simp only [drainPass, Option.some_inj, Prod.mk.injEq] at h
    obtain ⟨h1, -, -, h4, h5⟩ := h
    subst h1; subst h4; subst h5
    exact ⟨hInv, hblk, hproc, fun b hb => absurd hb (List.not_mem_nil b),
      fun k hk => hk⟩
  | cons o rest ih =>
    intro bc mp bcast proc bc' mp' bcast' proc' keep h hInv hblk hpow hproc
    simp only [drainPass] at h
    by_cases hm : o.get_parent = blk.hashB E
    · rw [if_pos hm] at h
      cases hins : bc.insert E o with
      | none => rw [hins] at h; exact absurd h (by simp)
      | some bci =>
        rw [hins] at h
        have hparo : containsA o.get_parent bc.blocks = true := by
          rw [hm]; exact hblk
        have hpowo : o.hashB E ≤ DIFFICULTY := hpow o (List.mem_cons_self o rest)
        obtain ⟨hInvI, hmonoI, hnewI⟩ := insert_chainInv E bc o bci hInv hparo hpowo hins
        have hblkI : containsA (blk.hashB E) bci.blocks = true := hmonoI _ hblk
        have hprocI : AllInChain E bci (blk :: proc) := by
          intro b hb
          rcases List.mem_cons.mp hb with hbblk | hbproc
          · subst hbblk; exact hblkI
          · exact hmonoI _ (hproc b hbproc)
        obtain ⟨hInv', hblk', hproc', hkeep', hmono'⟩ := ih bci
          (removeTxs E mp blk.content.transactions) (bcast ++ [blk.hashB E])
          (blk :: proc) bc' mp' bcast' proc' keep h hInvI hblkI
          (fun b hb => hpow b (List.mem_cons_of_mem o hb)) hprocI
        exact ⟨hInv', hblk', hproc', hkeep',
          fun k hk => hmono' k (hmonoI k hk)⟩
    · rw [if_neg hm] at h
      cases hrec : drainPass E blk rest bc mp bcast proc with
      | none => rw [hrec] at h; exact absurd h (by simp)
      | some out =>
        obtain ⟨bc0, mp0, bcast0, proc0, keep0⟩ := out
        rw [hrec] at h
        simp only [Option.some_inj, Prod.mk.injEq] at h
        obtain ⟨h1, -, -, h4, h5⟩ := h
        subst h1; subst h4; subst h5
        obtain ⟨hInv', hblk', hproc', hkeep', hmono'⟩ := ih bc mp bcast proc
          bc0 mp0 bcast0 proc0 keep0 hrec hInv hblk
          (fun b hb => hpow b (List.mem_cons_of_mem o hb)) hproc
        refine ⟨hInv', hblk', hproc', ?_, hmono'⟩
        intro b hb
        rcases List.mem_cons.mp hb with hbo | hbk
        · subst hbo; exact hpow b (List.mem_cons_self b rest)
        · exact hkeep' b hbk

theorem drainAux_chainInv (E : Env) :
    ∀ (fuel : Nat) (proc orphans : List Block) (bc : Blockchain) (mp : Mempool)
      (bcast : List Nat) (bc' : Blockchain) (mp' : Mempool) (bcast' : List Nat)
      (orphans' : List Block),
      drainAux E fuel proc orphans bc mp bcast = some (bc', mp', bcast', orphans') →
      ChainInv E bc → AllPow E orphans → AllInChain E bc proc →
      ChainInv E bc' ∧ AllPow E orphans' ∧
        (∀ k, containsA k bc.blocks = true → containsA k bc'.blocks = true) := by
  intro fuel
  induction fuel with
  | zero =>
    intro proc orphans bc mp bcast bc' mp' bcast' orphans' h hInv hpow hproc
    cases proc with
    | nil =>
      rw [drainAux_nil] at h
      simp only [Option.some_inj, Prod.mk.injEq] at h
      obtain ⟨h1, -, -, h4⟩ := h
      subst h1; subst h4
      exact ⟨hInv, hpow, fun k hk => hk⟩
    | cons blk p => exact absurd h (by simp [drainAux])
  | succ f ih =>
    intro proc orphans bc mp bcast bc' mp' bcast' orphans' h hInv hpow hproc
    cases proc with
    | nil =>
      rw [drainAux_nil] at h
      simp only [Option.some_inj, Prod.mk.injEq] at h
      obtain ⟨h1, -, -, h4⟩ := h
      subst h1; subst h4
      exact ⟨hInv, hpow, fun k hk => hk⟩
    | cons blk p =>
      have hstep : drainAux E (f + 1) (blk :: p) orphans bc mp bcast =
          match drainPass E blk orphans bc mp bcast p with
          | none => none
          | some (bc2, mp2, bcast2, procN, keep) =>
              drainAux E f procN keep bc2 mp2 bcast2 := rfl
      rw [hstep] at h
      cases hdp : drainPass E blk orphans bc mp bcast p with
      | none => rw [hdp] at h; exact absurd h (by simp)
      | some out =>
        obtain ⟨bc2, mp2, bcast2, procN, keep⟩ := out
        rw [hdp] at h
        have hblk : containsA (blk.hashB E) bc.blocks = true :=
          hproc blk (List.mem_cons_self blk p)
        obtain ⟨hInv2, -, hproc2, hkeep2, hmono2⟩ := drainPass_chainInv E blk orphans
          bc mp bcast p bc2 mp2 bcast2 procN keep hdp hInv hblk hpow
          (fun b hb => hproc b (List.mem_cons_of_mem blk hb))
        obtain ⟨hInv', hpow', hmono'⟩ := ih procN keep bc2 mp2 bcast2 bc' mp' bcast'
          orphans' h hInv2 hkeep2 hproc2
        exact ⟨hInv', hpow', fun k hk => hmono' k (hmono2 k hk)⟩

theorem blocksLoop_chainInv (E : Env) :
    ∀ (msg : List Block) (bc : Blockchain) (mp : Mempool) (broadcast parents : List Nat)
      (proc orphans : List Block)
      (out : Blockchain × Mempool × List Nat × List Nat × List Block),
      blocksLoop E msg bc mp broadcast parents proc orphans = some out →
      ChainInv E bc → AllPow E orphans → AllInChain E bc proc →
      ChainInv E out.1 := by
  intro msg
  induction msg with
  | nil =>
    intro bc mp broadcast parents proc orphans out h hInv hpow hproc
    simp only [blocksLoop, Option.some_inj] at h
    rw [← h]
    exact hInv
  | cons block rest ih =>
    intro bc mp broadcast parents proc orphans out h hInv hpow hproc
    simp only [blocksLoop] at h
    by_cases h1 : containsA (block.hashB E) bc.blocks
    · rw [if_pos h1] at h
      exact ih bc mp broadcast parents proc orphans out h hInv hpow hproc
    · rw [if_neg h1] at h
      by_cases h2 : ¬ (block.hashB E ≤ DIFFICULTY)
      · rw [if_pos h2] at h
        exact ih bc mp broadcast parents proc orphans out h hInv hpow hproc
      · rw [if_neg h2] at h
        have hbpow : block.hashB E ≤ DIFFICULTY := by omega
        by_cases h3 : ¬ allSigsOk E block
        · rw [if_pos h3] at h
          exact ih bc mp broadcast parents proc orphans out h hInv hpow hproc
        · rw [if_neg h3] at h
          by_cases h4 : containsA block.get_parent bc.blocks
          · rw [if_pos h4] at h
            cases hins : bc.insert E block with
            | none => rw [hins] at h; exact absurd h (by simp)
            | some bc1 =>
              rw [hins] at h
              dsimp only at h
              obtain ⟨hInv1, hmono1, hnew1⟩ :=
                insert_chainInv E bc block bc1 hInv h4 hbpow hins
              cases hdr : drain E (block :: proc) orphans bc1
                  (removeTxs E mp block.content.transactions)
                  (broadcast ++ [block.hashB E]) with
              | none => rw [hdr] at h; exact absurd h (by simp)
              | some out2 =>
                obtain ⟨bc2, mp2, bcast2, orphans2⟩ := out2
                rw [hdr] at h
                have hproc1 : AllInChain E bc1 (block :: proc) := by
                  intro b hb
                  rcases List.mem_cons.mp hb with hbb | hbp
                  · subst hbb; exact hnew1
                  · exact hmono1 _ (hproc b hbp)
                obtain ⟨hInv2, hpow2, -⟩ := drainAux_chainInv E _ (block :: proc)
                  orphans bc1 (removeTxs E mp block.content.transactions)
                  (broadcast ++ [block.hashB E]) bc2 mp2 bcast2 orphans2 hdr
                  hInv1 hpow hproc1
                exact ih bc2 mp2 bcast2 parents [] orphans2 out h hInv2 hpow2
                  (fun b hb => absurd hb (List.not_mem_nil b))
          · rw [if_neg h4] at h
            cases hdr : drain E proc (orphans ++ [block]) bc mp broadcast with
            | none => rw [hdr] at h; exact absurd h (by simp)
            | some out2 =>
              obtain ⟨bc2, mp2, bcast2, orphans2⟩ := out2
              rw [hdr] at h
              have hpow1 : AllPow E (orphans ++ [block]) := by
                intro b hb
                rcases List.mem_append.mp hb with hbo | hbb
                · exact hpow b hbo
                · rw [List.mem_singleton.mp hbb]
                  exact hbpow
              obtain ⟨hInv2, hpow2, -⟩ := drainAux_chainInv E _ proc
                (orphans ++ [block]) bc mp broadcast bc2 mp2 bcast2 orphans2 hdr
                hInv hpow1 hproc
              exact ih bc2 mp2 bcast2 (parents ++ [block.get_parent]) [] orphans2
                out h hInv2 hpow2 (fun b hb => absurd hb (List.not_mem_nil b))

theorem handleBlocks_chainInv (E : Env) (msg : List Block) (bc : Blockchain)
    (mp : Mempool) (out : Blockchain × Mempool × List Nat × List Nat × List Block)
    (h : handleBlocks E msg bc mp = some out) (hInv : ChainInv E bc) :
    ChainInv E out.1 :=
  blocksLoop_chainInv E msg bc mp [] [] [] [] out h hInv
    (fun b hb => absurd hb (List.not_mem_nil b))
    (fun b hb => absurd hb (List.not_mem_nil b))

theorem minerCommit_chainInv (E : Env) (bc : Blockchain) (b : Block) (bc' : Blockchain)
    (hpow : b.hashB E ≤ DIFFICULTY) (h : minerCommit E bc b = some bc')
    (hInv : ChainInv E bc) : ChainInv E bc' := by
  unfold minerCommit at h
  by_cases h1 : bc.tip ≠ b.get_parent
  · rw [if_pos h1] at h
    simp only [Option.some_inj] at h
    exact h ▸ hInv
  · rw [if_neg h1] at h
    by_cases h2 : containsA (b.hashB E) bc.blocks
    · rw [if_pos h2] at h
      simp only [Option.some_inj] at h
      exact h ▸ hInv
    · rw [if_neg h2] at h
      have hpar : containsA b.get_parent bc.blocks = true := by
        have : bc.tip = b.get_parent := by
          by_contra hne
          exact h1 hne
        rw [← this]
        exact hInv.tip_blocks
      exact (insert_chainInv E bc b bc' hInv hpar hpow h).1

theorem chainInv_genesis (E : Env) : ChainInv E (Blockchain.new E) := by
  refine ⟨?_, ?_, ?_, ?_⟩
  · simp [Blockchain.new, containsA, lookupA]
  · simp [Blockchain.new, containsA, lookupA]
  · intro p hp
    simp only [Blockchain.new, List.mem_singleton] at hp
    subst hp
    exact Or.inl rfl
  · intro p hp
    simp only [Blockchain.new, List.mem_singleton] at hp
    subst hp
    exact Or.inl rfl

/-- The chain invariant holds in every reachable chain-store state. -/
theorem chainInv_of_reachable (E : Env) (bc : Blockchain) (h : Reachable E bc) :
    ChainInv E bc := by
  induction h with
  | genesis => exact chainInv_genesis E
  | network bc0 msg mp bc' mp' bcast preq orphans _ hstep ih =>
    exact handleBlocks_chainInv E msg bc0 mp (bc', mp', bcast, preq, orphans) hstep ih
  | miner bc0 parent nonce timestamp txs bc' _ hpow hstep ih =>
    exact minerCommit_chainInv E bc0 _ bc' hpow hstep ih

/-! ### Concrete instantiation of the external primitives

Used to evaluate the embedded code on concrete inputs: headers hash to
their nonce field (so block nonces double as block identities),
signed transactions hash to their signature field, every signature
verifies, and an address equals its public key. -/

def toyEnv : Env :=
  { hashHeader := fun hd => hd.nonce
    hashTx := fun st => st.signature
    hashTwo := fun a b => a + 2 * b + 1
    sigVerify := fun _ _ _ => true
    addrOfPk := fun pk => pk
    txSize := fun _ => 100 }

/-- A block extending genesis (hash 50 under `toyEnv`). -/
def blkB : Block :=
  { header := { parent := 0, nonce := 50, difficulty := DIFFICULTY, timestamp := 0,
                merkle_root := 0 }
    content := { transactions := [] } }

/-- A child of `blkB` (hash 60 under `toyEnv`). -/
def blkC : Block :=
  { header := { parent := 50, nonce := 60, difficulty := DIFFICULTY, timestamp := 0,
                merkle_root := 0 }
    content := { transactions := [] } }

/-- A block whose parent (hash 99) is unknown to a fresh chain. -/
def blkD : Block :=
  { header := { parent := 99, nonce := 77, difficulty := DIFFICULTY, timestamp := 0,
                merkle_root := 0 }
    content := { transactions := [] } }

/-- A child of `blkB` (hash 10) that can be delivered before `blkB`. -/
def blkX : Block :=
  { header := { parent := 50, nonce := 10, difficulty := DIFFICULTY, timestamp := 0,
                merkle_root := 0 }
    content := { transactions := [] } }

/-- A block whose hash (7) meets the static `DIFFICULTY` but exceeds
its own header difficulty field (3). -/
def blkBadDiff : Block :=
  { header := { parent := 0, nonce := 7, difficulty := 3, timestamp := 0,
                merkle_root := 0 }
    content := { transactions := [] } }

/-- The chain state after installing `blkB` on a fresh chain. -/
def chainWithB : Blockchain :=
  { blocks := [(0, genesisBlock), (50, blkB)]
    tip := 50
    heights := [(0, 0), (50, 1)] }

/-! ### Claims -/

/-- C5: for every non-empty input list of `n` data items and every
index `i < n`, `verify(root(), hash(data[i]), proof(i), i, n)` returns
`true`, including indices whose path crosses a duplicated (padded) node
in an odd-sized layer. -/
theorem C5_merkle_roundtrip {α : Type} (ht : Nat → Nat → Nat) (hashDatum : α → Nat)
    (data : List α) (i : Nat) (hi : i < data.length) :
    merkleVerify ht (MerkleTree.new ht hashDatum data).root
      (hashDatum (data.get ⟨i, hi⟩))
      ((MerkleTree.new ht hashDatum data).proofOf i) i data.length = true := by
  have hne : ¬ (data.isEmpty = true) := by
    cases data with
    | nil => simp at hi
    | cons a t => simp
  have hlen : (data.map hashDatum).length = data.length := List.length_map data hashDatum
  unfold MerkleTree.new
  rw [if_neg hne]
  dsimp only
  unfold MerkleTree.proofOf
  dsimp only
  rw [if_neg (by omega : ¬ i ≥ (data.map hashDatum).length)]
  unfold merkleVerify
  rw [if_neg (by omega : ¬ i ≥ data.length)]
  have hd : hashDatum (data.get ⟨i, hi⟩) = (data.map hashDatum).getD i 0 :=
    (getD_map_get hashDatum data i hi).symm
  rw [hd]
  rw [computeRoot_buildLayers ht (data.map hashDatum).length (data.map hashDatum)
    (le_refl _) i (by omega)]
  simp

theorem C5_merkle_roundtrip_witness :
    (2 < [5, 6, 7].length) ∧
      merkleVerify (fun a b => a + 2 * b + 1)
        (MerkleTree.new (fun a b => a + 2 * b + 1) (fun x : Nat => x) [5, 6, 7]).root
        7 ((MerkleTree.new (fun a b => a + 2 * b + 1) (fun x : Nat => x) [5, 6, 7]).proofOf 2)
        2 [5, 6, 7].length = true :=
  ⟨by decide,
    C5_merkle_roundtrip (fun a b => a + 2 * b + 1) (fun x => x) [5, 6, 7] 2 (by decide)⟩

/-- C8: for every chain state (with the parent's and the tip's heights
recorded, the inserted block not being the incumbent tip itself),
`insert` updates the tip to `hash(b)` iff the new height
`parent height + 1` strictly exceeds the current tip's height; on equal
height the incumbent tip is preserved. -/
theorem C8_fork_rule (E : Env) (bc : Blockchain) (b : Block) (hp ht : Nat)
    (hpar : lookupA b.get_parent bc.heights = some hp)
    (htip : lookupA bc.tip bc.heights = some ht)
    (hne : b.hashB E ≠ bc.tip) :
    ∃ bc', bc.insert E b = some bc' ∧
      (bc'.tip = b.hashB E ∨ bc'.tip = bc.tip) ∧
      (bc'.tip = b.hashB E ↔ hp + 1 > ht) ∧
      (hp + 1 = ht → bc'.tip = bc.tip) := by
  have htip' : lookupA bc.tip (insertA (b.hashB E)
      ((lookupA b.get_parent bc.heights).getD 0 + 1) bc.heights) = some ht := by
    rw [lookupA_insertA_ne _ _ _ _ (fun e => hne e.symm)]
    exact htip
  dsimp only [Blockchain.insert]
  rw [htip']
  refine ⟨_, rfl, ?_⟩
  dsimp only
  rw [hpar]
  simp only [Option.getD_some]
  by_cases hgt : hp + 1 > ht
  · rw [if_pos hgt]
    exact ⟨Or.inl rfl, ⟨fun _ => hgt, fun _ => rfl⟩, fun he => by omega⟩
  · rw [if_neg hgt]
    exact ⟨Or.inr rfl, ⟨fun he => absurd he.symm hne, fun hg => absurd hg hgt⟩,
      fun _ => rfl⟩

theorem C8_fork_rule_witness :
    (lookupA blkC.get_parent chainWithB.heights = some 1 ∧
      lookupA chainWithB.tip chainWithB.heights = some 1 ∧
      blkC.hashB toyEnv ≠ chainWithB.tip) ∧
    (∃ bc', chainWithB.insert toyEnv blkC = some bc' ∧
      (bc'.tip = blkC.hashB toyEnv ∨ bc'.tip = chainWithB.tip) ∧
      (bc'.tip = blkC.hashB toyEnv ↔ 1 + 1 > 1) ∧
      (1 + 1 = 1 → bc'.tip = chainWithB.tip)) :=
  ⟨⟨by decide, by decide, by decide⟩,
    C8_fork_rule toyEnv chainWithB blkC 1 1 (by decide) (by decide) (by decide)⟩

/-- C10: `Blockchain::insert` never rejects a block whose parent hash is
absent from the heights map: the missing parent's height is read with
`unwrap_or(0)`, so the block is stored with height `0 + 1 = 1` (and the
insert succeeds, i.e. none of its lookups panics, as long as the tip has
a height entry, which holds in every reachable state). -/
theorem C10_unknown_parent (E : Env) (bc : Blockchain) (b : Block)
    (hpar : lookupA b.get_parent bc.heights = none)
    (htip : containsA bc.tip bc.heights = true) :
    ∃ bc', bc.insert E b = some bc' ∧
      lookupA (b.hashB E) bc'.blocks = some b ∧
      lookupA (b.hashB E) bc'.heights = some 1 := by
  obtain ⟨bc', hins⟩ := Blockchain.insert_isSome E bc b htip
  obtain ⟨hblocks, hheights, -⟩ := Blockchain.insert_spec E bc b bc' hins
  refine ⟨bc', hins, ?_, ?_⟩
  · rw [hblocks]
    exact lookupA_insertA_self _ _ _
  · rw [hheights, hpar]
    exact lookupA_insertA_self _ _ _

theorem C10_unknown_parent_witness :
    (lookupA blkD.get_parent (Blockchain.new toyEnv).heights = none ∧
      containsA (Blockchain.new toyEnv).tip (Blockchain.new toyEnv).heights = true) ∧
    (∃ bc', (Blockchain.new toyEnv).insert toyEnv blkD = some bc' ∧
      lookupA (blkD.hashB toyEnv) bc'.blocks = some blkD ∧
      lookupA (blkD.hashB toyEnv) bc'.heights = some 1) :=
  ⟨⟨by decide, by decide⟩,
    C10_unknown_parent toyEnv (Blockchain.new toyEnv) blkD (by decide) (by decide)⟩

/-- C7 (counterexample): `insert` is not idempotent on every state
containing the block.  Install `blkX` (whose parent `blkB` is not yet
known, so it gets height 1), then `blkB`; re-inserting the stored
`blkX` now recomputes its height from its parent's stored height,
changing the heights map from `some 1` to `some 2` at `hash(blkX)`. -/
theorem C7_counterexample :
    ((Blockchain.new toyEnv).insert toyEnv blkX).bind (fun bc1 =>
        (bc1.insert toyEnv blkB).bind (fun bc2 =>
          (bc2.insert toyEnv blkX).map (fun bc3 =>
            (lookupA (blkX.hashB toyEnv) bc2.blocks,
             lookupA (blkX.hashB toyEnv) bc2.heights,
             lookupA (blkX.hashB toyEnv) bc3.heights))))
      = some (some blkX, some 1, some 2) := by decide

/-- C7 (amended): re-inserting a block `b` already present leaves the
blocks map, the heights map and the tip unchanged, provided the state
is height-consistent at `b` — `heights[b] = heights[parent(b)] + 1`
and `heights[b] ≤ heights[tip]` — as holds whenever the parent's height
has not changed since `b` was inserted, in particular in every state
produced by the worker/miner paths, which only insert blocks whose
parent is already stored. -/
theorem C7_insert_idempotent (E : Env) (bc : Blockchain) (b : Block) (hp ht : Nat)
    (hblk : lookupA (b.hashB E) bc.blocks = some b)
    (hpar : lookupA b.get_parent bc.heights = some hp)
    (hhei : lookupA (b.hashB E) bc.heights = some (hp + 1))
    (htip : lookupA bc.tip bc.heights = some ht)
    (hle : hp + 1 ≤ ht) :
    ∃ bc', bc.insert E b = some bc' ∧ bc'.tip = bc.tip ∧
      (∀ k, lookupA k bc'.blocks = lookupA k bc.blocks) ∧
      (∀ k, lookupA k bc'.heights = lookupA k bc.heights) := by
  have hext : ∀ k, lookupA k (insertA (b.hashB E)
      ((lookupA b.get_parent bc.heights).getD 0 + 1) bc.heights) = lookupA k bc.heights := by
    intro k
    rw [hpar]
    exact lookupA_insertA_of_lookup _ _ _ hhei k
  have htip' : lookupA bc.tip (insertA (b.hashB E)
      ((lookupA b.get_parent bc.heights).getD 0 + 1) bc.heights) = some ht := by
    rw [hext]
    exact htip
  dsimp only [Blockchain.insert]
  rw [htip']
  refine ⟨_, rfl, ?_, ?_, ?_⟩
  · dsimp only
    rw [hpar]
    simp only [Option.getD_some]
    rw [if_neg (by omega : ¬ hp + 1 > ht)]
  · intro k
    exact lookupA_insertA_of_lookup _ _ _ hblk k
  · intro k
    exact hext k

theorem C7_insert_idempotent_witness :
    (lookupA (blkB.hashB toyEnv) chainWithB.blocks = some blkB ∧
      lookupA blkB.get_parent chainWithB.heights = some 0 ∧
      lookupA (blkB.hashB toyEnv) chainWithB.heights = some (0 + 1) ∧
      lookupA chainWithB.tip chainWithB.heights = some 1 ∧
      0 + 1 ≤ 1) ∧
    (∃ bc', chainWithB.insert toyEnv blkB = some bc' ∧ bc'.tip = chainWithB.tip ∧
      (∀ k, lookupA k bc'.blocks = lookupA k chainWithB.blocks) ∧
      (∀ k, lookupA k bc'.heights = lookupA k chainWithB.heights)) :=
  ⟨⟨by decide, by decide, by decide, by decide, by decide⟩,
    C7_insert_idempotent toyEnv chainWithB blkB 0 1 (by decide) (by decide)
      (by decide) (by decide) (by decide)⟩

/-- C1 (counterexample): the `Blocks` handler checks proof-of-work
against the static `DIFFICULTY`, not against `b.header.difficulty`:
`blkBadDiff` (hash 7, header difficulty field 3) is installed although
`hash(b) > b.header.difficulty`. -/
theorem C1_counterexample :
    ((handleBlocks toyEnv [blkBadDiff] (Blockchain.new toyEnv) Mempool.new).map
        (fun out => containsA (blkBadDiff.hashB toyEnv) out.1.blocks) = some true)
    ∧ ¬ (blkBadDiff.hashB toyEnv ≤ blkBadDiff.header.difficulty) := by decide

/-- C1 (amended): for every non-genesis block `b` in the chain store of
a state reachable through the `Blocks` handler or the miner commit
path, `hash(b) ≤ DIFFICULTY` — the node's static difficulty constant,
which is what both install paths compare the hash against (not
`b.header.difficulty`). -/
theorem C1_pow_invariant (E : Env) (bc : Blockchain) (h : Reachable E bc) :
    PoWInv E bc :=
  (chainInv_of_reachable E bc h).pow

theorem C1_pow_invariant_witness :
    Reachable toyEnv chainWithB ∧ PoWInv toyEnv chainWithB :=
  have hR : Reachable toyEnv chainWithB :=
    Reachable.network (Blockchain.new toyEnv) [blkB] Mempool.new chainWithB
      Mempool.new [50] [] [] Reachable.genesis (by decide)
  ⟨hR, C1_pow_invariant toyEnv chainWithB hR⟩

/-- C6 (counterexample): `Blockchain::insert` does not require the
parent to be known before storing a block: inserting `blkD` (parent
hash 99, unknown) into a fresh chain succeeds and stores the block
while its parent is absent, breaking closure in the resulting map. -/
theorem C6_counterexample :
    ((Blockchain.new toyEnv).insert toyEnv blkD).map
        (fun bc' => (containsA (blkD.hashB toyEnv) bc'.blocks,
                     containsA blkD.get_parent bc'.blocks))
      = some (true, false) := by decide

/-- C6 (amended): chain closure — every stored block is the genesis or
has its parent stored — holds in every chain-store state reachable
through the `Blocks` handler and the miner commit path; it is enforced
by those callers' parent checks, not by `insert` itself, which stores a
block with an unknown parent (defaulting the parent height to 0). -/
theorem C6_chain_closure (E : Env) (bc : Blockchain) (h : Reachable E bc) :
    ChainClosure E bc :=
  (chainInv_of_reachable E bc h).closure

theorem C6_chain_closure_witness :
    Reachable toyEnv chainWithB ∧ ChainClosure toyEnv chainWithB :=
  have hR : Reachable toyEnv chainWithB :=
    Reachable.network (Blockchain.new toyEnv) [blkB] Mempool.new chainWithB
      Mempool.new [50] [] [] Reachable.genesis (by decide)
  ⟨hR, C6_chain_closure toyEnv chainWithB hR⟩

/-- C2: the orphan buffer is a local variable of each `Blocks` message,
so an orphan buffered by one message is gone when its parent arrives in
a later message: delivering `blkC` (child of `blkB`), then `blkB`
(child of genesis, stored), leaves `blkC` out of the chain store, and
the broadcast of the second message is just `[hash(blkB)]`.  Within a
single batch `[blkC, blkB]` the orphan is installed, but the drain loop
pushes the parent's hash instead of the orphan's onto the broadcast
batch, which ends as `[hash(blkB), hash(blkB)]` — `hash(blkC)` is never
broadcast. -/
theorem C2_orphan_reconciliation_bug :
    ((match handleBlocks toyEnv [blkC] (Blockchain.new toyEnv) Mempool.new with
      | some (bc1, mp1, _, _, _) =>
          (handleBlocks toyEnv [blkB] bc1 mp1).map
            (fun out => (containsA (blkB.hashB toyEnv) out.1.blocks,
                         containsA (blkC.hashB toyEnv) out.1.blocks,
                         out.2.2.1))
      | none => none)
      = some (true, false, [blkB.hashB toyEnv]))
    ∧ ((handleBlocks toyEnv [blkC, blkB] (Blockchain.new toyEnv) Mempool.new).map
        (fun out => (containsA (blkC.hashB toyEnv) out.1.blocks, out.2.2.1))
      = some (true, [blkB.hashB toyEnv, blkB.hashB toyEnv])) := by decide

/-! Behaviour of the `Transactions` handler (for C3). -/

theorem mempool_insert_set_mem (E : Env) (mp : Mempool) (tx : SignedTransaction)
    (h : Nat) (hm : h ∈ mp.transaction_set) : h ∈ (mp.insert E tx).transaction_set := by
  unfold Mempool.insert
  by_cases hc : E.hashTx tx ∈ mp.transaction_set
  · rw [if_pos hc]
    exact hm
  · rw [if_neg hc]
    exact List.mem_append_left _ hm

theorem mempool_insert_set_self (E : Env) (mp : Mempool) (tx : SignedTransaction) :
    E.hashTx tx ∈ (mp.insert E tx).transaction_set := by
  unfold Mempool.insert
  by_cases hc : E.hashTx tx ∈ mp.transaction_set
  · rw [if_pos hc]
    exact hc
  · rw [if_neg hc]
    exact List.mem_append_right _ (List.mem_singleton_self _)

theorem mempool_insert_set_elim (E : Env) (mp : Mempool) (tx : SignedTransaction)
    (h : Nat) (hm : h ∈ (mp.insert E tx).transaction_set) :
    h ∈ mp.transaction_set ∨ h = E.hashTx tx := by
  unfold Mempool.insert at hm
  by_cases hc : E.hashTx tx ∈ mp.transaction_set
  · rw [if_pos hc] at hm
    exact Or.inl hm
  · rw [if_neg hc] at hm
    rcases List.mem_append.mp hm with hl | hr
    · exact Or.inl hl
    · exact Or.inr (List.mem_singleton.mp hr)

theorem mempool_insert_map_mono (E : Env) (mp : Mempool) (tx : SignedTransaction)
    (h : Nat) (hm : containsA h mp.transaction_map = true) :
    containsA h (mp.insert E tx).transaction_map = true := by
  unfold Mempool.insert
  by_cases hc : E.hashTx tx ∈ mp.transaction_set
  · rw [if_pos hc]
    exact hm
  · rw [if_neg hc]
    exact containsA_insertA_of_containsA _ _ _ _ hm

theorem mempool_insert_map_self (E : Env) (mp : Mempool) (tx : SignedTransaction)
    (hns : ¬ E.hashTx tx ∈ mp.transaction_set) :
    containsA (E.hashTx tx) (mp.insert E tx).transaction_map = true := by
  unfold Mempool.insert
  rw [if_neg hns]
  exact containsA_insertA_self _ _ _

theorem mempool_insert_map_elim (E : Env) (mp : Mempool) (tx : SignedTransaction)
    (h : Nat) (hc : containsA h (mp.insert E tx).transaction_map = true) :
    containsA h mp.transaction_map = true ∨ h = E.hashTx tx := by
  unfold Mempool.insert at hc
  by_cases hm : E.hashTx tx ∈ mp.transaction_set
  · rw [if_pos hm] at hc
    exact Or.inl hc
  · rw [if_neg hm] at hc
    rcases containsA_insertA_elim _ _ _ _ hc with he | hold
    · exact Or.inr he
    · exact Or.inl hold

theorem transactionsLoop_cons_true (E : Env) (tx : SignedTransaction)
    (rest : List SignedTransaction) (mp : Mempool) (bcast : List Nat)
    (hv : E.sigVerify tx.transaction tx.public_key tx.signature = true) :
    transactionsLoop E (tx :: rest) mp bcast =
      transactionsLoop E rest (mp.insert E tx) (bcast ++ [E.hashTx tx]) := by
  simp [transactionsLoop, hv]

theorem transactionsLoop_cons_false (E : Env) (tx : SignedTransaction)
    (rest : List SignedTransaction) (mp : Mempool) (bcast : List Nat)
    (hv : E.sigVerify tx.transaction tx.public_key tx.signature = false) :
    transactionsLoop E (tx :: rest) mp bcast = transactionsLoop E rest mp bcast := by
  simp [transactionsLoop, hv]

theorem transactionsLoop_broadcast (E : Env) :
    ∀ (txs : List SignedTransaction) (mp : Mempool) (bcast : List Nat),
      (transactionsLoop E txs mp bcast).2 =
        bcast ++ (txs.filter fun tx =>
          E.sigVerify tx.transaction tx.public_key tx.signature).map E.hashTx := by
  intro txs
  induction txs with
  | nil => intro mp bcast; simp [transactionsLoop]
  | cons tx rest ih =>
    intro mp bcast
    by_cases hv : E.sigVerify tx.transaction tx.public_key tx.signature
    · rw [transactionsLoop_cons_true E tx rest mp bcast hv, ih]
      simp [List.filter_cons, hv, List.append_assoc]
    · have hv0 : E.sigVerify tx.transaction tx.public_key tx.signature = false := by
        simpa using hv
      rw [transactionsLoop_cons_false E tx rest mp bcast hv0, ih]
      simp [List.filter_cons, hv0]

theorem transactionsLoop_set_mono (E : Env) :
    ∀ (txs : List SignedTransaction) (mp : Mempool) (bcast : List Nat) (h : Nat),
      h ∈ mp.transaction_set → h ∈ (transactionsLoop E txs mp bcast).1.transaction_set := by
  intro txs
  induction txs with
  | nil => intro mp bcast h hm; exact hm
  | cons tx rest ih =>
    intro mp bcast h hm
    by_cases hv : E.sigVerify tx.transaction tx.public_key tx.signature
    · rw [transactionsLoop_cons_true E tx rest mp bcast hv]
      exact ih _ _ h (mempool_insert_set_mem E mp tx h hm)
    · rw [transactionsLoop_cons_false E tx rest mp bcast (by simpa using hv)]
      exact ih _ _ h hm

theorem transactionsLoop_map_mono (E : Env) :
    ∀ (txs : List SignedTransaction) (mp : Mempool) (bcast : List Nat) (h : Nat),
      containsA h mp.transaction_map = true →
      containsA h (transactionsLoop E txs mp bcast).1.transaction_map = true := by
  intro txs
  induction txs with
  | nil => intro mp bcast h hm; exact hm
  | cons tx rest ih =>
    intro mp bcast h hm
    by_cases hv : E.sigVerify tx.transaction tx.public_key tx.signature
    · rw [transactionsLoop_cons_true E tx rest mp bcast hv]
      exact ih _ _ h (mempool_insert_map_mono E mp tx h hm)
    · rw [transactionsLoop_cons_false E tx rest mp bcast (by simpa using hv)]
      exact ih _ _ h hm

theorem transactionsLoop_inserts (E : Env) :
    ∀ (txs : List SignedTransaction) (mp : Mempool) (bcast : List Nat)
      (tx : SignedTransaction), tx ∈ txs →
      E.sigVerify tx.transaction tx.public_key tx.signature = true →
      E.hashTx tx ∈ (transactionsLoop E txs mp bcast).1.transaction_set ∧
        (¬ E.hashTx tx ∈ mp.transaction_set →
          containsA (E.hashTx tx) (transactionsLoop E txs mp bcast).1.transaction_map = true) := by
  intro txs
  induction txs with
  | nil => intro mp bcast tx hmem; exact absurd hmem (List.not_mem_nil tx)
  | cons tx' rest ih =>
    intro mp bcast tx hmem hv
    rcases List.mem_cons.mp hmem with hhead | hrest
    · subst hhead
      rw [transactionsLoop_cons_true E tx rest mp bcast hv]
      refine ⟨transactionsLoop_set_mono E rest _ _ _ (mempool_insert_set_self E mp tx), ?_⟩
      intro hns
      exact transactionsLoop_map_mono E rest _ _ _ (mempool_insert_map_self E mp tx hns)
    · by_cases hv' : E.sigVerify tx'.transaction tx'.public_key tx'.signature
      · rw [transactionsLoop_cons_true E tx' rest mp bcast hv']
        have ihr := ih (mp.insert E tx') (bcast ++ [E.hashTx tx']) tx hrest hv
        refine ⟨ihr.1, ?_⟩
        intro hns
        by_cases hsame : E.hashTx tx' = E.hashTx tx
        · have hns' : ¬ E.hashTx tx' ∈ mp.transaction_set := by
            rw [hsame]
            exact hns
          have hmap : containsA (E.hashTx tx) (mp.insert E tx').transaction_map = true := by
            rw [← hsame]
            exact mempool_insert_map_self E mp tx' hns'
          exact transactionsLoop_map_mono E rest _ _ _ hmap
        · apply ihr.2
          intro hns'
          rcases mempool_insert_set_elim E mp tx' _ hns' with hin | heq
          · exact hns hin
          · exact hsame heq.symm
      · rw [transactionsLoop_cons_false E tx' rest mp bcast (by simpa using hv')]
        exact ih mp bcast tx hrest hv

theorem transactionsLoop_map_new (E : Env) :
    ∀ (txs : List SignedTransaction) (mp : Mempool) (bcast : List Nat) (h : Nat),
      containsA h (transactionsLoop E txs mp bcast).1.transaction_map = true →
      containsA h mp.transaction_map = true ∨
        ∃ tx ∈ txs, E.sigVerify tx.transaction tx.public_key tx.signature = true ∧
          E.hashTx tx = h := by
  intro txs
  induction txs with
  | nil => intro mp bcast h hm; exact Or.inl hm
  | cons tx' rest ih =>
    intro mp bcast h hm
    by_cases hv' : E.sigVerify tx'.transaction tx'.public_key tx'.signature
    · rw [transactionsLoop_cons_true E tx' rest mp bcast hv'] at hm
      rcases ih _ _ h hm with hins | ⟨tx, htx, hvtx, heq⟩
      · rcases mempool_insert_map_elim E mp tx' h hins with hold | hnew
        · exact Or.inl hold
        · exact Or.inr ⟨tx', List.mem_cons_self tx' rest, hv', hnew.symm⟩
      · exact Or.inr ⟨tx, List.mem_cons_of_mem tx' htx, hvtx, heq⟩
    · rw [transactionsLoop_cons_false E tx' rest mp bcast (by simpa using hv')] at hm
      rcases ih _ _ h hm with hins | ⟨tx, htx, hvtx, heq⟩
      · exact Or.inl hins
      · exact Or.inr ⟨tx, List.mem_cons_of_mem tx' htx, hvtx, heq⟩

/-- A signed transaction whose signing key does not own the claimed
sender account: under `toyEnv` the address of `public_key = 1` is 1,
but `transaction.sender = 2`.  Its signature "verifies". -/
def badTx : SignedTransaction :=
  { transaction := { sender := 2, receiver := 3, value := 5, account_nonce := 1 }
    signature := 9
    public_key := 1 }

/-- A mempool that has already seen `hash(badTx) = 9` (map empty: the
transaction was included or evicted). -/
def seenMp : Mempool :=
  { transaction_map := [], transaction_set := [9] }

/-- C3 (counterexample): the `Transactions` handler performs no
`Address::from(public_key) == sender` check — `badTx` is inserted into
the mempool although its public key does not own the sender account;
moreover the handler broadcasts the hash of every signature-valid
transaction, even one that was already seen and therefore not newly
inserted. -/
theorem C3_counterexample :
    (containsA (toyEnv.hashTx badTx)
        (handleTransactions toyEnv [badTx] Mempool.new).1.transaction_map = true
      ∧ toyEnv.addrOfPk badTx.public_key ≠ badTx.transaction.sender)
    ∧ ((handleTransactions toyEnv [badTx] seenMp).1 = seenMp
      ∧ (handleTransactions toyEnv [badTx] seenMp).2 = [toyEnv.hashTx badTx]) := by
  decide

/-- C3 (amended): for every `Transactions` message, a delivered
transaction is inserted into the mempool iff its signature verifies
over the serialized transaction and its hash has not been seen — no
sender-address check is performed — and the broadcast batch is the
hash of every signature-valid transaction of the message (newly
inserted or not). -/
theorem C3_transactions_handler (E : Env) (txs : List SignedTransaction) (mp : Mempool) :
    ((handleTransactions E txs mp).2 =
      (txs.filter fun tx =>
        E.sigVerify tx.transaction tx.public_key tx.signature).map E.hashTx)
    ∧ (∀ tx ∈ txs, E.sigVerify tx.transaction tx.public_key tx.signature = true →
        E.hashTx tx ∈ (handleTransactions E txs mp).1.transaction_set ∧
          (¬ E.hashTx tx ∈ mp.transaction_set →
            containsA (E.hashTx tx) (handleTransactions E txs mp).1.transaction_map = true))
    ∧ (∀ h, containsA h (handleTransactions E txs mp).1.transaction_map = true →
        containsA h mp.transaction_map = true ∨
          ∃ tx ∈ txs, E.sigVerify tx.transaction tx.public_key tx.signature = true ∧
            E.hashTx tx = h) := by
  refine ⟨?_, ?_, ?_⟩
  · rw [handleTransactions, transactionsLoop_broadcast]
    simp
  · intro tx htx hv
    exact transactionsLoop_inserts E txs mp [] tx htx hv
  · intro h hm
    exact transactionsLoop_map_new E txs mp [] h hm

theorem C3_transactions_handler_witness :
    ((handleTransactions toyEnv [badTx] Mempool.new).2 =
      (([badTx].filter fun tx =>
        toyEnv.sigVerify tx.transaction tx.public_key tx.signature).map toyEnv.hashTx))
    ∧ toyEnv.hashTx badTx ∈ (handleTransactions toyEnv [badTx] Mempool.new).1.transaction_set :=
  ⟨(C3_transactions_handler toyEnv [badTx] Mempool.new).1,
    ((C3_transactions_handler toyEnv [badTx] Mempool.new).2.1 badTx
      (List.mem_singleton_self badTx) (by decide)).1⟩

/-- A permanently stale transaction: its sender's recorded state is
`(nonce 5, balance 0)` and the transaction carries nonce 4 ≤ 5. -/
def staleTx : SignedTransaction :=
  { transaction := { sender := 1, receiver := 3, value := 0, account_nonce := 4 }
    signature := 11
    public_key := 1 }

/-- A future-nonce transaction: its sender's recorded state is
`(nonce 0, balance 1000000)` and the transaction carries nonce 10. -/
def futureTx : SignedTransaction :=
  { transaction := { sender := 2, receiver := 3, value := 1, account_nonce := 10 }
    signature := 12
    public_key := 2 }

/-- The parent state for the C4 scenario. -/
def c4State : AccountState :=
  [(1, (5, 0)), (2, (0, 1000000))]

/-- A mempool holding the stale and the future transaction. -/
def c4Mempool : Mempool :=
  { transaction_map := [(11, staleTx), (12, futureTx)]
    transaction_set := [11, 12] }

/-- C4: the eviction predicate of the miner's selection pass compares
the transaction nonce against the sender's *balance*
(`transaction.account_nonce < sender_state.1`) instead of its nonce, so
after one selection pass over `c4Mempool` the permanently stale
transaction (nonce 4 ≤ sender nonce 5, sender balance 0) is still in
the mempool, while the future-nonce transaction (nonce 10 over sender
nonce 0, ample balance) has been evicted — the opposite of the claimed
behaviour. -/
theorem C4_eviction_bug :
    (containsA (toyEnv.hashTx staleTx)
        (minerSelect toyEnv c4Mempool.transaction_map c4State c4Mempool 0 []).2.1.transaction_map
      = true)
    ∧ (containsA (toyEnv.hashTx futureTx)
        (minerSelect toyEnv c4Mempool.transaction_map c4State c4Mempool 0 []).2.1.transaction_map
      = false)
    ∧ staleTx.transaction.account_nonce ≤
        ((lookupA staleTx.transaction.sender c4State).getD (0, 0)).1
    ∧ ((lookupA futureTx.transaction.sender c4State).getD (0, 0)).1 + 1 <
        futureTx.transaction.account_nonce
    ∧ futureTx.transaction.value ≤
        ((lookupA futureTx.transaction.sender c4State).getD (0, 0)).2 := by
  decide

/-- A gossiped transaction from an account (address 42) never touched
by this node's blocks. -/
def foreignTx : SignedTransaction :=
  { transaction := { sender := 42, receiver := 3, value := 1, account_nonce := 1 }
    signature := 13
    public_key := 5 }

/-- The post-mine block state of the C9 scenario: only the ICO account
(address 7) has an entry. -/
def icoState : AccountState :=
  [(7, (0, 1000000))]

/-- C9: after a gossiped transaction from an unknown account enters the
mempool through the `Transactions` handler, the miner's post-mine
cleanup pass looks the sender up in the new block's state with an
unguarded `unwrap()` and panics (`none`): the pass is not total over
mempool contents. -/
theorem C9_cleanup_panics :
    (minerCleanup toyEnv
        ((handleTransactions toyEnv [foreignTx] Mempool.new).1).transaction_map
        icoState
        (handleTransactions toyEnv [foreignTx] Mempool.new).1 = none)
    ∧ containsA (toyEnv.hashTx foreignTx)
        ((handleTransactions toyEnv [foreignTx] Mempool.new).1).transaction_map = true
    ∧ lookupA foreignTx.transaction.sender icoState = none := by
  decide

end PoWNode
